import Mathlib

/-!
Verification of the flowerbloom Bloom filter (`src/lib.rs`).

The Rust source is shallowly embedded as follows.  Bytes (`u8`) are natural
numbers kept below 256 by the operations themselves; `u64` values are natural
numbers, with the `checked_add(..).unwrap()` of the source modelled as an
explicit overflow test against `2 ^ 64`; a Rust `panic!` / `unreachable!()` is
modelled by returning `none`.  The hash strategy (`fn(&T) -> u64`) is an
arbitrary function `T → ℕ`; the default SHA3-based strategy is an external
collaborator of the crate and is therefore a parameter of the model.  The
sizing functions `optimal_bits_needed` and `optimal_num_hash_fns` use 32-bit
floating point arithmetic in the source; they are idealised here over `ℝ`
with exact `Real.log`, keeping the exact shape of the source expressions
(`.ceil() as u32` on a nonnegative value is `Nat.ceil`, and the negative or
zero values arising for `fp_rate ≥ 1` are clamped to `0` exactly as Rust's
saturating float-to-int cast does).
-/

namespace Flowerbloom

/-- The Bloom filter state, mirroring `struct BloomFilter<T>` of the source:
the byte buffer `bits : Vec<u8>`, the configured `capacity : u32`, the probe
count `num_hash_fns : u32` and the hash strategy `hash_fn : fn(&T) -> u64`. -/
structure BloomFilter (T : Type) where
  bits : List ℕ
  capacity : ℕ
  num_hash_fns : ℕ
  hash_fn : T → ℕ

/-- The index derivation shared by `BloomFilter::insert` and
`BloomFilter::has`: `num.checked_add(i as u64).unwrap()` followed by
`% (self.capacity as u64)`.  The `unwrap` aborts on 64-bit overflow
(`none`), and the remainder by `capacity == 0` is a Rust panic (`none`). -/
def probe_index (cap hashVal i : ℕ) : Option ℕ :=
  if hashVal + i < 2 ^ 64 then
    if cap = 0 then none
    else some ((hashVal + i) % cap)
  else none

/-- One bit-setting step of `BloomFilter::insert`: `pos = idx / 8`,
`pos_within_bits = idx % 8`, then `*b |= 1 << pos_within_bits` on the byte
`self.bits[pos]`; the `None => unreachable!()` arm of the source is `none`. -/
def set_bit (bits : List ℕ) (idx : ℕ) : Option (List ℕ) :=
  match bits[idx / 8]? with
  | some b => some (bits.set (idx / 8) (b ||| (1 <<< (idx % 8))))
  | none => none

/-- One bit-reading step of `BloomFilter::has`:
`let bit = (*b >> pos_within_bits) & 1`, the probe reading `true` exactly
when that bit is nonzero; the `None => unreachable!()` arm is `none`. -/
def get_bit (bits : List ℕ) (idx : ℕ) : Option Bool :=
  match bits[idx / 8]? with
  | some b => some (((b >>> (idx % 8)) &&& 1) != 0)
  | none => none

/-- The loop of `BloomFilter::insert` over the probe indices
`0..self.num_hash_fns`, threading the mutated byte buffer; any panicking
step aborts the whole operation. -/
def insertProbes (hashVal cap : ℕ) : List ℕ → List ℕ → Option (List ℕ)
  | [], bits => some bits
  | i :: rest, bits =>
    match probe_index cap hashVal i with
    | some idx =>
      match set_bit bits idx with
      | some bits2 => insertProbes hashVal cap rest bits2
      | none => none
    | none => none

/-- `BloomFilter::insert`.  The source recomputes `(self.hash_fn)(&elem)` in
every loop iteration; the hash strategy is a pure function, so the value is
the same each time and is taken once here. -/
def BloomFilter.insert {T : Type} (f : BloomFilter T) (elem : T) :
    Option (BloomFilter T) :=
  match insertProbes (f.hash_fn elem) f.capacity (List.range f.num_hash_fns) f.bits with
  | some bits2 => some { f with bits := bits2 }
  | none => none

/-- The loop of `BloomFilter::has`: returns `false` at the first probed bit
that is zero, `true` after all `num_hash_fns` probes read a set bit. -/
def hasProbes (hashVal cap : ℕ) : List ℕ → List ℕ → Option Bool
  | [], _ => some true
  | i :: rest, bits =>
    match probe_index cap hashVal i with
    | some idx =>
      match get_bit bits idx with
      | some true => hasProbes hashVal cap rest bits
      | some false => some false
      | none => none
    | none => none

/-- `BloomFilter::has`. -/
def BloomFilter.has {T : Type} (f : BloomFilter T) (elem : T) : Option Bool :=
  hasProbes (f.hash_fn elem) f.capacity (List.range f.num_hash_fns) f.bits

/-- `BloomFilter::clear`: `self.bits.iter_mut().for_each(|elem| *elem = 0)`. -/
def BloomFilter.clear {T : Type} (f : BloomFilter T) : BloomFilter T :=
  { f with bits := f.bits.map (fun _ => 0) }

/-- A sequence of `insert` calls, aborting at the first panicking one; used
to speak about states reached from a given filter by inserts alone. -/
def insertAll {T : Type} (f : BloomFilter T) : List T → Option (BloomFilter T)
  | [] => some f
  | y :: ys =>
    match f.insert y with
    | some g => insertAll g ys
    | none => none

/-- The value of the global bit `idx` of a byte buffer (byte `idx / 8`,
bit `idx % 8`); bits beyond the buffer read as `false`. -/
def bit_at (bits : List ℕ) (idx : ℕ) : Bool :=
  match bits[idx / 8]? with
  | some b => b.testBit (idx % 8)
  | none => false

/-- The conditions under which the probe `i` of an operation on a filter
with the given capacity, hash value and buffer length does not panic. -/
def probe_ok (cap hashVal i len : ℕ) : Prop :=
  hashVal + i < 2 ^ 64 ∧ cap ≠ 0 ∧ (hashVal + i) % cap / 8 < len

/-- `optimal_bits_needed`: `(-(num_items as f32) * fp_rate.ln()) / 2f32.ln().powi(2)`,
rounded up and cast to `u32` (floats idealised over `ℝ`, see the module
docstring). -/
noncomputable def optimal_bits_needed (num_items : ℕ) (fp_rate : ℝ) : ℕ :=
  ⌈(-(num_items : ℝ) * Real.log fp_rate) / (Real.log 2) ^ 2⌉₊

/-- `optimal_num_hash_fns`: asserts `num_items > 0`, then computes
`(bits as f32 / num_items as f32) * 2f32.ln()`, rounded up.  The failed
assertion (a panic) is `none`. -/
noncomputable def optimal_num_hash_fns (num_items : ℕ) (fp_rate : ℝ) : Option ℕ :=
  if num_items = 0 then none
  else
    some ⌈((optimal_bits_needed num_items fp_rate : ℕ) : ℝ) / (num_items : ℝ) * Real.log 2⌉₊

/-- `BloomBuilder::build`: picks the probe count from the optional override
(the private, dead-code `num_hash_funcs` setter) or from
`optimal_num_hash_fns`, sizes the buffer as `(required_bits as f64 / 8.0).ceil()`
bytes (exact for `u32` inputs, hence the natural ceiling division), and
allocates a zeroed buffer. -/
noncomputable def BloomBuilder.build (T : Type) (capacity : ℕ) (fp_rate : ℝ)
    (num_hash_fns : Option ℕ) (hash_fn : T → ℕ) : Option (BloomFilter T) :=
  (match num_hash_fns with
    | some n => some n
    | none => optimal_num_hash_fns capacity fp_rate).map
    (fun k =>
      { bits := List.replicate ((optimal_bits_needed capacity fp_rate + 7) / 8) 0
        capacity := capacity
        num_hash_fns := k
        hash_fn := hash_fn })

/-- `BloomFilter::new`: the direct constructor; identical sizing to the
builder with no probe-count override.  The default SHA3 hash strategy is an
external collaborator, so the strategy is a parameter of the model. -/
noncomputable def BloomFilter.new (T : Type) (capacity : ℕ) (desired_fp_rate : ℝ)
    (hash_fn : T → ℕ) : Option (BloomFilter T) :=
  (optimal_num_hash_fns capacity desired_fp_rate).map
    (fun k =>
      { bits := List.replicate ((optimal_bits_needed capacity desired_fp_rate + 7) / 8) 0
        capacity := capacity
        num_hash_fns := k
        hash_fn := hash_fn })

/-! Helper lemmas about single bits and probes. -/

lemma bit_at_def (bits : List ℕ) (j : ℕ) :
    bit_at bits j = (bits[j / 8]?.getD 0).testBit (j % 8) := by
  unfold bit_at
  cases bits[j / 8]? <;> simp

lemma shift_and_bne_eq_testBit (b m : ℕ) : ((b >>> m) &&& 1 != 0) = b.testBit m := by
  unfold Nat.testBit
  rw [Nat.land_comm]

lemma one_shiftLeft_testBit (m n : ℕ) : (1 <<< m).testBit n = decide (m = n) := by
  rw [Nat.shiftLeft_eq, one_mul]
  by_cases h : m = n
  · subst h
    simp [Nat.testBit_two_pow_self]
  · simp [Nat.testBit_two_pow_of_ne h, h]

lemma lor_eq_self_of_testBit {b m : ℕ} (h : b.testBit m = true) : b ||| (1 <<< m) = b := by
  apply Nat.eq_of_testBit_eq
  intro t
  rw [Nat.testBit_lor, one_shiftLeft_testBit]
  by_cases hm : m = t
  · subst hm
    simp [h]
  · simp [hm]

lemma set_self_of_getElem? {bits : List ℕ} {p b : ℕ} (h : bits[p]? = some b) :
    bits.set p b = bits := by
  apply List.ext_getElem?
  intro j
  rw [List.getElem?_set]
  by_cases hj : p = j
  · subst hj
    rw [if_pos rfl, if_pos (List.getElem?_eq_some.mp h).1, h]
  · rw [if_neg hj]

lemma probe_index_inv {cap hashVal i idx : ℕ} (h : probe_index cap hashVal i = some idx) :
    hashVal + i < 2 ^ 64 ∧ cap ≠ 0 ∧ idx = (hashVal + i) % cap := by
  unfold probe_index at h
  split_ifs at h with h1 h2
  · exact ⟨h1, h2, (Option.some.injEq _ _ ▸ h).symm⟩

lemma probe_index_some {cap hashVal i : ℕ} (h1 : hashVal + i < 2 ^ 64) (h2 : cap ≠ 0) :
    probe_index cap hashVal i = some ((hashVal + i) % cap) := by
  unfold probe_index
  rw [if_pos h1, if_neg h2]

lemma get_bit_eq_some {bits : List ℕ} {idx : ℕ} (h : idx / 8 < bits.length) :
    get_bit bits idx = some (bit_at bits idx) := by
  unfold get_bit
  simp only [List.getElem?_eq_getElem h]
  rw [bit_at_def]
  simp only [List.getElem?_eq_getElem h, Option.getD_some]
  rw [shift_and_bne_eq_testBit]

lemma set_bit_eq_some {bits bits2 : List ℕ} {idx : ℕ} (h : set_bit bits idx = some bits2) :
    idx / 8 < bits.length ∧ bits2.length = bits.length ∧
      ∀ j, bit_at bits2 j = (bit_at bits j || decide (j = idx)) := by
  cases hb : bits[idx / 8]? with
  | none => simp [set_bit, hb] at h
  | some b =>
    have hlt : idx / 8 < bits.length := (List.getElem?_eq_some.mp hb).1
    simp only [set_bit, hb, Option.some.injEq] at h
    subst h
    refine ⟨hlt, List.length_set _ _ _, fun j => ?_⟩
    rw [bit_at_def, bit_at_def, List.getElem?_set]
    by_cases hj8 : idx / 8 = j / 8
    · rw [if_pos hj8, if_pos hlt, ← hj8, hb]
      simp only [Option.getD_some]
      rw [Nat.testBit_lor, one_shiftLeft_testBit]
      by_cases hm : idx % 8 = j % 8
      · have hj : j = idx := by omega
        simp [hm, hj]
      · have hj : j ≠ idx := by omega
        simp [hm, hj]
    · rw [if_neg hj8]
      have hj : j ≠ idx := by omega
      simp [hj]

/-! Characterizations of the insert and query loops. -/

lemma insertProbes_eq_some {hashVal cap : ℕ} {is : List ℕ} {bits bits2 : List ℕ}
    (h : insertProbes hashVal cap is bits = some bits2) :
    bits2.length = bits.length ∧
      (∀ i ∈ is, probe_ok cap hashVal i bits.length) ∧
      ∀ j, bit_at bits2 j = true ↔
        (bit_at bits j = true ∨ ∃ i ∈ is, j = (hashVal + i) % cap) := by
  induction is generalizing bits with
  | nil =>
    simp only [insertProbes, Option.some.injEq] at h
    subst h
    simp
  | cons i rest ih =>
    rw [insertProbes] at h
    cases hp : probe_index cap hashVal i with
    | none => simp [hp] at h
    | some idx =>
      simp only [hp] at h
      cases hs : set_bit bits idx with
      | none => simp [hs] at h
      | some bits1 =>
        simp only [hs] at h
        obtain ⟨hov, hcap, hidx⟩ := probe_index_inv hp
        obtain ⟨hlt, hlen1, hbit1⟩ := set_bit_eq_some hs
        obtain ⟨hlen2, hok, hbit2⟩ := ih h
        subst hidx
        refine ⟨by omega, ?_, ?_⟩
        · intro i' hi'
          rcases List.mem_cons.mp hi' with h1 | h1
          · subst h1
            exact ⟨hov, hcap, hlt⟩
          · have h2 := hok i' h1
            rw [hlen1] at h2
            exact h2
        · intro j
          rw [hbit2 j, hbit1 j]
          simp only [Bool.or_eq_true, decide_eq_true_eq, List.mem_cons]
          constructor
          · rintro (⟨hb | hj⟩ | ⟨i', hi', hj⟩)
            · exact Or.inl hb
            · exact Or.inr ⟨i, Or.inl rfl, hj⟩
            · exact Or.inr ⟨i', Or.inr hi', hj⟩
          · rintro (hb | ⟨i', hi' | hi', hj⟩)
            · exact Or.inl (Or.inl hb)
            · subst hi'
              exact Or.inl (Or.inr hj)
            · exact Or.inr ⟨i', hi', hj⟩

lemma insertProbes_none_of_overflow {hashVal cap : ℕ} {is : List ℕ} {bits : List ℕ}
    (hov : ∃ i ∈ is, 2 ^ 64 ≤ hashVal + i) :
    insertProbes hashVal cap is bits = none := by
  induction is generalizing bits with
  | nil => simp at hov
  | cons i rest ih =>
    rw [insertProbes]
    rcases hov with ⟨i', hi', hov'⟩
    rcases List.mem_cons.mp hi' with h1 | h1
    · subst h1
      have hp : probe_index cap hashVal i' = none := by
        unfold probe_index
        rw [if_neg (by omega)]
      simp only [hp]
    · cases hp : probe_index cap hashVal i with
      | none => simp only [hp]
      | some idx =>
        simp only [hp]
        cases hs : set_bit bits idx with
        | none => simp only [hs]
        | some bits1 =>
          simp only [hs]
          exact ih ⟨i', h1, hov'⟩

lemma insertProbes_of_already_set {hashVal cap : ℕ} {is : List ℕ} {bits : List ℕ}
    (hok : ∀ i ∈ is, probe_ok cap hashVal i bits.length)
    (hset : ∀ i ∈ is, bit_at bits ((hashVal + i) % cap) = true) :
    insertProbes hashVal cap is bits = some bits := by
  induction is with
  | nil => rfl
  | cons i rest ih =>
    obtain ⟨hov, hcap, hlt⟩ := hok i (List.mem_cons_self i rest)
    rw [insertProbes]
    simp only [probe_index_some hov hcap]
    cases hb : bits[(hashVal + i) % cap / 8]? with
    | none =>
      rw [List.getElem?_eq_getElem hlt] at hb
      cases hb
    | some b =>
      have htb : b.testBit ((hashVal + i) % cap % 8) = true := by
        have hone := hset i (List.mem_cons_self i rest)
        rw [bit_at_def, hb] at hone
        simpa using hone
      have hsb : set_bit bits ((hashVal + i) % cap) = some bits := by
        unfold set_bit
        simp only [hb, lor_eq_self_of_testBit htb, set_self_of_getElem? hb]
      simp only [hsb]
      exact ih (fun i' h' => hok i' (List.mem_cons_of_mem _ h'))
        (fun i' h' => hset i' (List.mem_cons_of_mem _ h'))

lemma hasProbes_all {hashVal cap : ℕ} {is : List ℕ} {bits : List ℕ}
    (hok : ∀ i ∈ is, probe_ok cap hashVal i bits.length) :
    hasProbes hashVal cap is bits =
      some (is.all fun i => bit_at bits ((hashVal + i) % cap)) := by
  induction is with
  | nil => rfl
  | cons i rest ih =>
    obtain ⟨hov, hcap, hlt⟩ := hok i (List.mem_cons_self i rest)
    rw [hasProbes]
    simp only [probe_index_some hov hcap, get_bit_eq_some hlt]
    cases hbit : bit_at bits ((hashVal + i) % cap) with
    | false => simp [hbit]
    | true =>
      simp only [hbit]
      rw [ih (fun i' h' => hok i' (List.mem_cons_of_mem _ h'))]
      simp [List.all_cons, hbit]

lemma hasProbes_ne_some_true {hashVal cap : ℕ} {is : List ℕ} {bits : List ℕ}
    (hov : ∃ i ∈ is, 2 ^ 64 ≤ hashVal + i) :
    hasProbes hashVal cap is bits ≠ some true := by
  induction is generalizing bits with
  | nil => simp at hov
  | cons i rest ih =>
    rw [hasProbes]
    rcases hov with ⟨i', hi', hov'⟩
    rcases List.mem_cons.mp hi' with h1 | h1
    · subst h1
      have hp : probe_index cap hashVal i' = none := by
        unfold probe_index
        rw [if_neg (by omega)]
      simp [hp]
    · cases hp : probe_index cap hashVal i with
      | none => simp [hp]
      | some idx =>
        simp only [hp]
        cases hg : get_bit bits idx with
        | none => simp [hg]
        | some b =>
          cases b with
          | false => simp [hg]
          | true =>
            simp only [hg]
            exact ih ⟨i', h1, hov'⟩

/-! Filter-level lemmas. -/

lemma insert_eq_some {T : Type} {f f2 : BloomFilter T} {x : T}
    (h : f.insert x = some f2) :
    f2.capacity = f.capacity ∧ f2.num_hash_fns = f.num_hash_fns ∧ f2.hash_fn = f.hash_fn ∧
      insertProbes (f.hash_fn x) f.capacity (List.range f.num_hash_fns) f.bits = some f2.bits := by
  unfold BloomFilter.insert at h
  cases hp : insertProbes (f.hash_fn x) f.capacity (List.range f.num_hash_fns) f.bits with
  | none => simp [hp] at h
  | some bits2 =>
    simp only [hp, Option.some.injEq] at h
    subst h
    exact ⟨rfl, rfl, rfl, rfl⟩

/-- All probe positions of `x` are in range and their bits are set in `f`. -/
def probes_set {T : Type} (f : BloomFilter T) (x : T) : Prop :=
  ∀ i < f.num_hash_fns,
    probe_ok f.capacity (f.hash_fn x) i f.bits.length ∧
      bit_at f.bits ((f.hash_fn x + i) % f.capacity) = true

lemma probes_set_of_insert {T : Type} {f f2 : BloomFilter T} {x : T}
    (h : f.insert x = some f2) : probes_set f2 x := by
  obtain ⟨hc, hk, hh, hp⟩ := insert_eq_some h
  obtain ⟨hlen, hok, hbit⟩ := insertProbes_eq_some hp
  intro i hi
  rw [hk] at hi
  rw [hc, hh, hlen]
  refine ⟨hok i (List.mem_range.mpr hi), ?_⟩
  exact (hbit _).mpr (Or.inr ⟨i, List.mem_range.mpr hi, rfl⟩)

lemma probes_set_insert_preserved {T : Type} {g g2 : BloomFilter T} {x y : T}
    (hps : probes_set g x) (h : g.insert y = some g2) : probes_set g2 x := by
  obtain ⟨hc, hk, hh, hp⟩ := insert_eq_some h
  obtain ⟨hlen, hok, hbit⟩ := insertProbes_eq_some hp
  intro i hi
  rw [hk] at hi
  obtain ⟨hok1, hbit1⟩ := hps i hi
  rw [hc, hh, hlen]
  exact ⟨hok1, (hbit _).mpr (Or.inl hbit1)⟩

lemma has_of_probes_set {T : Type} {g : BloomFilter T} {x : T}
    (hps : probes_set g x) : g.has x = some true := by
  unfold BloomFilter.has
  rw [hasProbes_all (fun i hi => (hps i (List.mem_range.mp hi)).1)]
  have hall : ((List.range g.num_hash_fns).all
      fun i => bit_at g.bits ((g.hash_fn x + i) % g.capacity)) = true :=
    List.all_eq_true.mpr (fun i hi => (hps i (List.mem_range.mp hi)).2)
  rw [hall]

lemma insertAll_preserves_probes_set {T : Type} {x : T} {ys : List T} :
    ∀ {g g3 : BloomFilter T}, probes_set g x → insertAll g ys = some g3 → probes_set g3 x := by
  induction ys with
  | nil =>
    intro g g3 hps hseq
    simp only [insertAll, Option.some.injEq] at hseq
    subst hseq
    exact hps
  | cons y ys ih =>
    intro g g3 hps hseq
    rw [insertAll] at hseq
    cases hy : g.insert y with
    | none => simp [hy] at hseq
    | some g1 =>
      simp only [hy] at hseq
      exact ih (probes_set_insert_preserved hps hy) hseq

/-! The claims. -/

/-- Claim C1: no false negatives.  If `insert f x` completes without failure
and only further (failure-free) inserts follow, with no intervening `clear`,
then `has` on `x` returns `some true`, for any filter state and hence for any
constructed filter and any hash strategy. -/
theorem claim_c1_no_false_negatives {T : Type} (f f2 f3 : BloomFilter T) (x : T)
    (ys : List T) (hins : f.insert x = some f2) (hseq : insertAll f2 ys = some f3) :
    f3.has x = some true :=
  has_of_probes_set (insertAll_preserves_probes_set (probes_set_of_insert hins) hseq)

/-- Claim C1 witness: a concrete two-probe filter over `Unit`. -/
theorem claim_c1_witness :
    (BloomFilter.mk [96] 8 2 (fun _ : Unit => 5)).has () = some true :=
  claim_c1_no_false_negatives (BloomFilter.mk [0] 8 2 (fun _ : Unit => 5))
    (BloomFilter.mk [96] 8 2 (fun _ : Unit => 5))
    (BloomFilter.mk [96] 8 2 (fun _ : Unit => 5)) () [] rfl rfl

/-- Claim C2: query semantics.  When no probe fails, `has` returns
`some true` iff every probed bit (position `(hash x + i) % capacity` for
`i < num_hash_fns`) reads as set, and `some false` iff some probed bit reads
as unset. -/
theorem claim_c2_query_semantics {T : Type} (f : BloomFilter T) (x : T)
    (hcap : f.capacity ≠ 0)
    (hov : ∀ i < f.num_hash_fns, f.hash_fn x + i < 2 ^ 64)
    (hb : ∀ i < f.num_hash_fns, (f.hash_fn x + i) % f.capacity / 8 < f.bits.length) :
    (f.has x = some true ↔
        ∀ i < f.num_hash_fns, get_bit f.bits ((f.hash_fn x + i) % f.capacity) = some true) ∧
      (f.has x = some false ↔
        ∃ i < f.num_hash_fns, get_bit f.bits ((f.hash_fn x + i) % f.capacity) = some false) := by
  have hok : ∀ i ∈ List.range f.num_hash_fns,
      probe_ok f.capacity (f.hash_fn x) i f.bits.length :=
    fun i hi => ⟨hov i (List.mem_range.mp hi), hcap, hb i (List.mem_range.mp hi)⟩
  have hget : ∀ i < f.num_hash_fns, get_bit f.bits ((f.hash_fn x + i) % f.capacity) =
      some (bit_at f.bits ((f.hash_fn x + i) % f.capacity)) :=
    fun i hi => get_bit_eq_some (hb i hi)
  have hT : ((List.range f.num_hash_fns).all
        fun i => bit_at f.bits ((f.hash_fn x + i) % f.capacity)) = true ↔
      ∀ i < f.num_hash_fns, bit_at f.bits ((f.hash_fn x + i) % f.capacity) = true := by
    rw [List.all_eq_true]
    exact ⟨fun h i hi => h i (List.mem_range.mpr hi), fun h i hi => h i (List.mem_range.mp hi)⟩
  have hF : ((List.range f.num_hash_fns).all
        fun i => bit_at f.bits ((f.hash_fn x + i) % f.capacity)) = false ↔
      ∃ i < f.num_hash_fns, bit_at f.bits ((f.hash_fn x + i) % f.capacity) = false := by
    rw [List.all_eq_false]
    constructor
    · rintro ⟨i, hi, hfalse⟩
      exact ⟨i, List.mem_range.mp hi, Bool.not_eq_true _ ▸ hfalse⟩
    · rintro ⟨i, hi, hfalse⟩
      exact ⟨i, List.mem_range.mpr hi, by simp [hfalse]⟩
  unfold BloomFilter.has
  rw [hasProbes_all hok]
  constructor
  · simp only [Option.some.injEq]
    rw [hT]
    constructor
    · intro h i hi
      rw [hget i hi, h i hi]
    · intro h i hi
      have h2 := h i hi
      rw [hget i hi] at h2
      exact Option.some_inj.mp h2
  · simp only [Option.some.injEq]
    rw [hF]
    constructor
    · rintro h
      obtain ⟨i, hi, hfalse⟩ := h
      exact ⟨i, hi, by rw [hget i hi, hfalse]⟩
    · rintro ⟨i, hi, hfalse⟩
      refine ⟨i, hi, ?_⟩
      rw [hget i hi] at hfalse
      exact Option.some_inj.mp hfalse

/-- Claim C2 witness: a two-probe filter with bit 5 set and bit 6 unset
answers `some false`, exhibiting an unset probed bit. -/
theorem claim_c2_witness :
    (BloomFilter.mk [32] 8 2 (fun _ : Unit => 5)).has () = some false :=
  (claim_c2_query_semantics (BloomFilter.mk [32] 8 2 (fun _ : Unit => 5)) ()
    (by decide) (by decide) (by decide)).2.mpr ⟨1, by decide, by decide⟩

/-- Claim C5: clear is a full reset.  After `clear`, the byte buffer is all
zeros of unchanged length, the configuration (capacity, probe count, hash
strategy) is untouched, and, whenever the filter has at least one probe and
that probe does not panic, `has` answers `some false` for every item. -/
theorem claim_c5_clear_full_reset {T : Type} (f : BloomFilter T) (x : T) :
    f.clear.bits = List.replicate f.bits.length 0 ∧
      f.clear.capacity = f.capacity ∧
      f.clear.num_hash_fns = f.num_hash_fns ∧
      f.clear.hash_fn = f.hash_fn ∧
      f.clear.bits.length = f.bits.length ∧
      (1 ≤ f.num_hash_fns → f.capacity ≠ 0 → f.hash_fn x < 2 ^ 64 →
        f.hash_fn x % f.capacity / 8 < f.bits.length →
        f.clear.has x = some false) := by
  have hbits : f.clear.bits = List.replicate f.bits.length 0 := List.map_const' _ _
  refine ⟨hbits, rfl, rfl, rfl, by rw [hbits, List.length_replicate], ?_⟩
  intro hk hcap hov hlen
  show hasProbes (f.hash_fn x) f.capacity (List.range f.num_hash_fns) f.clear.bits = some false
  obtain ⟨k2, hk2⟩ : ∃ k2, f.num_hash_fns = k2 + 1 := ⟨f.num_hash_fns - 1, by omega⟩
  rw [hk2, List.range_succ_eq_map, hbits]
  rw [hasProbes]
  have hpi : probe_index f.capacity (f.hash_fn x) 0 = some (f.hash_fn x % f.capacity) := by
    have h2 := @probe_index_some f.capacity (f.hash_fn x) 0 (by omega) hcap
    simpa using h2
  simp only [hpi]
  have hg : get_bit (List.replicate f.bits.length 0) (f.hash_fn x % f.capacity) =
      some false := by
    unfold get_bit
    rw [List.getElem?_replicate, if_pos hlen]
    simp
  simp only [hg]

/-- Claim C5 witness: clearing a one-probe filter with a set bit. -/
theorem claim_c5_witness :
    (BloomFilter.mk [255] 8 1 (fun _ : Unit => 3)).clear.has () = some false :=
  (claim_c5_clear_full_reset (BloomFilter.mk [255] 8 1 (fun _ : Unit => 3)) ()).2.2.2.2.2
    (by decide) (by decide) (by decide) (by decide)

/-- Claim C6: construction with capacity 0 fails fast, for every
false-positive rate, in the probe-count derivation
(`assert!(num_items > 0)` in `optimal_num_hash_fns`), through both the
builder's `build` and the direct constructor `new`. -/
theorem claim_c6_zero_capacity_fails (T : Type) (p : ℝ) (hash : T → ℕ) :
    optimal_num_hash_fns 0 p = none ∧ BloomFilter.new T 0 p hash = none ∧
      BloomBuilder.build T 0 p none hash = none :=
  ⟨rfl, rfl, rfl⟩

/-- Claim C7 (amended): neither insert nor query ever uses a wrapped index.
If the checked addition `hash x + i` would exceed the `u64` range for some
probe `i`, `insert` aborts, and `has` never completes with `some true` (it
aborts unless an earlier unset probed bit already made it return
`some false`).  When no probe overflows, a successful insert sets exactly
the bits at positions `(hash x + i) % capacity`. -/
theorem claim_c7_overflow_amended {T : Type} (f f2 : BloomFilter T) (x : T) (j : ℕ) :
    ((∃ i < f.num_hash_fns, 2 ^ 64 ≤ f.hash_fn x + i) →
        f.insert x = none ∧ f.has x ≠ some true) ∧
      ((∀ i < f.num_hash_fns, f.hash_fn x + i < 2 ^ 64) → f.insert x = some f2 →
        (bit_at f2.bits j = true ↔
          (bit_at f.bits j = true ∨
            ∃ i < f.num_hash_fns, j = (f.hash_fn x + i) % f.capacity))) := by
  constructor
  · rintro ⟨i, hi, hov⟩
    constructor
    · unfold BloomFilter.insert
      simp only [insertProbes_none_of_overflow ⟨i, List.mem_range.mpr hi, hov⟩]
    · exact hasProbes_ne_some_true ⟨i, List.mem_range.mpr hi, hov⟩
  · intro _ hins
    obtain ⟨hc, hk, hh, hp⟩ := insert_eq_some hins
    obtain ⟨hlen, hok, hbit⟩ := insertProbes_eq_some hp
    rw [hbit j]
    constructor
    · rintro (hb | ⟨i, hi, hj⟩)
      · exact Or.inl hb
      · exact Or.inr ⟨i, List.mem_range.mp hi, hj⟩
    · rintro (hb | ⟨i, hi, hj⟩)
      · exact Or.inl hb
      · exact Or.inr ⟨i, List.mem_range.mpr hi, hj⟩

/-- Claim C7 counterexample: the claim as stated says the query operation
fails loudly whenever some probe's sum overflows; here the hash value is
`2 ^ 64 - 1` and probe `i = 1` would overflow, yet `has` returns
`some false` normally, because the first probe already read an unset bit. -/
theorem claim_c7_counterexample :
    (∃ i < (BloomFilter.mk [0] 8 2 (fun _ : Unit => 2 ^ 64 - 1)).num_hash_fns,
        2 ^ 64 ≤ (BloomFilter.mk [0] 8 2 (fun _ : Unit => 2 ^ 64 - 1)).hash_fn () + i) ∧
      (BloomFilter.mk [0] 8 2 (fun _ : Unit => 2 ^ 64 - 1)).has () = some false :=
  ⟨⟨1, by decide, by decide⟩, rfl⟩

/-- Claim C7 witness: both halves of the amended claim at concrete filters. -/
theorem claim_c7_witness :
    ((BloomFilter.mk [0] 8 2 (fun _ : Unit => 2 ^ 64 - 1)).insert () = none ∧
        (BloomFilter.mk [0] 8 2 (fun _ : Unit => 2 ^ 64 - 1)).has () ≠ some true) ∧
      (bit_at (BloomFilter.mk [32] 8 1 (fun _ : Unit => 5)).bits 5 = true ↔
        (bit_at (BloomFilter.mk [0] 8 1 (fun _ : Unit => 5)).bits 5 = true ∨
          ∃ i < (BloomFilter.mk [0] 8 1 (fun _ : Unit => 5)).num_hash_fns,
            5 = ((BloomFilter.mk [0] 8 1 (fun _ : Unit => 5)).hash_fn () + i) %
              (BloomFilter.mk [0] 8 1 (fun _ : Unit => 5)).capacity)) :=
  ⟨(claim_c7_overflow_amended (BloomFilter.mk [0] 8 2 (fun _ : Unit => 2 ^ 64 - 1))
      (BloomFilter.mk [0] 8 2 (fun _ : Unit => 2 ^ 64 - 1)) () 0).1 ⟨1, by decide, by decide⟩,
    (claim_c7_overflow_amended (BloomFilter.mk [0] 8 1 (fun _ : Unit => 5))
      (BloomFilter.mk [32] 8 1 (fun _ : Unit => 5)) () 5).2 (by decide) rfl⟩

/-- Claim C8: monotonicity.  A successful insert preserves the
configuration and the buffer length, and every bit set before remains set
after (insert only ORs single-bit masks); queries take the filter immutably
in this model, and the only bit-clearing operation is `clear`. -/
theorem claim_c8_monotonicity {T : Type} (f f2 : BloomFilter T) (x : T) (j : ℕ)
    (h : f.insert x = some f2) :
    f2.capacity = f.capacity ∧ f2.num_hash_fns = f.num_hash_fns ∧
      f2.hash_fn = f.hash_fn ∧ f2.bits.length = f.bits.length ∧
      (bit_at f.bits j = true → bit_at f2.bits j = true) := by
  obtain ⟨hc, hk, hh, hp⟩ := insert_eq_some h
  obtain ⟨hlen, hok, hbit⟩ := insertProbes_eq_some hp
  exact ⟨hc, hk, hh, hlen, fun hj => (hbit j).mpr (Or.inl hj)⟩

/-- Claim C8 witness: inserting into a filter with byte 1 set keeps bit 0. -/
theorem claim_c8_witness :
    bit_at (BloomFilter.mk [9] 8 1 (fun _ : Unit => 3)).bits 0 = true :=
  (claim_c8_monotonicity (BloomFilter.mk [1] 8 1 (fun _ : Unit => 3))
    (BloomFilter.mk [9] 8 1 (fun _ : Unit => 3)) () 0 rfl).2.2.2.2 rfl

/-- Claim C10: insert is idempotent.  Re-inserting the same item leaves the
whole filter state (buffer, capacity, probe count, hash strategy) exactly
equal to the state after the first insert. -/
theorem claim_c10_insert_idempotent {T : Type} (f f2 : BloomFilter T) (x : T)
    (h : f.insert x = some f2) : f2.insert x = some f2 := by
  obtain ⟨hc, hk, hh, hp⟩ := insert_eq_some h
  obtain ⟨hlen, hok, hbit⟩ := insertProbes_eq_some hp
  unfold BloomFilter.insert
  have hprobes : insertProbes (f2.hash_fn x) f2.capacity (List.range f2.num_hash_fns)
      f2.bits = some f2.bits := by
    rw [hh, hc, hk]
    apply insertProbes_of_already_set
    · intro i hi
      have h2 := hok i hi
      rw [← hlen] at h2
      exact h2
    · intro i hi
      exact (hbit _).mpr (Or.inr ⟨i, hi, rfl⟩)
  simp only [hprobes]

/-- Claim C10 witness: re-inserting into the two-probe filter. -/
theorem claim_c10_witness :
    (BloomFilter.mk [96] 8 2 (fun _ : Unit => 5)).insert () =
      some (BloomFilter.mk [96] 8 2 (fun _ : Unit => 5)) :=
  claim_c10_insert_idempotent (BloomFilter.mk [0] 8 2 (fun _ : Unit => 5))
    (BloomFilter.mk [96] 8 2 (fun _ : Unit => 5)) () rfl


/-! Numeric bounds for the sizing model. -/

lemma log_bounds_aux {x : ℝ} (hx0 : 0 < x) (hx1 : x < 1) (n : ℕ) :
    Real.log (1 - x) ≤ -(∑ i ∈ Finset.range n, x ^ (i + 1) / (i + 1)) + x ^ (n + 1) / (1 - x) ∧
      -(∑ i ∈ Finset.range n, x ^ (i + 1) / (i + 1)) - x ^ (n + 1) / (1 - x) ≤
        Real.log (1 - x) := by
  have habs : |x| = x := abs_of_pos hx0
  have h := Real.abs_log_sub_add_sum_range_le (by rw [habs]; exact hx1) n
  rw [habs, abs_le] at h
  constructor <;> linarith [h.1, h.2]

lemma log_ten_ninths_bounds :
    (0.1053603 : ℝ) < Real.log (10 / 9) ∧ Real.log (10 / 9) < 0.1053607 := by
  have h := log_bounds_aux (x := (1 : ℝ)/10) (by norm_num) (by norm_num) 6
  have h9 : Real.log ((10 : ℝ) / 9) = -Real.log (1 - 1/10) := by
    rw [show ((1 : ℝ) - 1/10) = ((10 : ℝ)/9)⁻¹ by norm_num, Real.log_inv, neg_neg]
  obtain ⟨h1, h2⟩ := h
  simp only [Finset.sum_range_succ, Finset.sum_range_zero] at h1 h2
  norm_num at h1 h2
  rw [h9]
  constructor <;> linarith

lemma log_five_fourths_bounds :
    (0.2231428 : ℝ) < Real.log (5 / 4) ∧ Real.log (5 / 4) < 0.2231442 := by
  have h := log_bounds_aux (x := (1 : ℝ)/5) (by norm_num) (by norm_num) 8
  have h4 : Real.log ((5 : ℝ) / 4) = -Real.log (1 - 1/5) := by
    rw [show ((1 : ℝ) - 1/5) = ((5 : ℝ)/4)⁻¹ by norm_num, Real.log_inv, neg_neg]
  obtain ⟨h1, h2⟩ := h
  simp only [Finset.sum_range_succ, Finset.sum_range_zero] at h1 h2
  norm_num at h1 h2
  rw [h4]
  constructor <;> linarith

lemma log_three_halves_bounds :
    (0.4054640 : ℝ) < Real.log (3 / 2) ∧ Real.log (3 / 2) < 0.4054660 := by
  have h := log_bounds_aux (x := (1 : ℝ)/3) (by norm_num) (by norm_num) 12
  have h3 : Real.log ((3 : ℝ) / 2) = -Real.log (1 - 1/3) := by
    rw [show ((1 : ℝ) - 1/3) = ((3 : ℝ)/2)⁻¹ by norm_num, Real.log_inv, neg_neg]
  obtain ⟨h1, h2⟩ := h
  simp only [Finset.sum_range_succ, Finset.sum_range_zero] at h1 h2
  norm_num at h1 h2
  rw [h3]
  constructor <;> linarith

lemma log_five_bounds : (1.6094371 : ℝ) < Real.log 5 ∧ Real.log 5 < 1.6094386 := by
  have h5 : Real.log (5 : ℝ) = 2 * Real.log 2 + Real.log (5 / 4) := by
    rw [show (5 : ℝ) = 2 ^ 2 * (5 / 4) by norm_num,
      Real.log_mul (by norm_num) (by norm_num), Real.log_pow]
    push_cast
    ring_nf
  have h1 := Real.log_two_gt_d9
  have h2 := Real.log_two_lt_d9
  have h3 := log_five_fourths_bounds
  rw [h5]
  constructor <;> linarith [h3.1, h3.2]

lemma log_three_bounds : (1.0986111 : ℝ) < Real.log 3 ∧ Real.log 3 < 1.0986132 := by
  have h3 : Real.log (3 : ℝ) = Real.log 2 + Real.log (3 / 2) := by
    rw [← Real.log_mul (by norm_num) (by norm_num)]
    norm_num
  have h1 := Real.log_two_gt_d9
  have h2 := Real.log_two_lt_d9
  have hh := log_three_halves_bounds
  rw [h3]
  constructor <;> linarith [hh.1, hh.2]

lemma log_two_sq_bounds :
    (0.4804530 : ℝ) < (Real.log 2) ^ 2 ∧ (Real.log 2) ^ 2 < 0.4804531 := by
  have h1 := Real.log_two_gt_d9
  have h2 := Real.log_two_lt_d9
  constructor <;> nlinarith [h1, h2]


lemma log_point2_eq : Real.log (0.2 : ℝ) = -Real.log 5 := by
  rw [show (0.2 : ℝ) = ((5 : ℝ))⁻¹ by norm_num, Real.log_inv]

lemma log_point01_eq : Real.log (0.01 : ℝ) = -(2 * Real.log 2 + 2 * Real.log 5) := by
  have h10 : Real.log (100 : ℝ) = 2 * Real.log 2 + 2 * Real.log 5 := by
    rw [show (100 : ℝ) = (2 * 5) ^ 2 by norm_num, Real.log_pow,
      Real.log_mul (by norm_num) (by norm_num)]
    push_cast
    ring
  rw [show (0.01 : ℝ) = ((100 : ℝ))⁻¹ by norm_num, Real.log_inv, h10]

lemma log_point03_eq : Real.log (0.03 : ℝ) = Real.log 3 - (2 * Real.log 2 + 2 * Real.log 5) := by
  have h10 : Real.log (100 : ℝ) = 2 * Real.log 2 + 2 * Real.log 5 := by
    rw [show (100 : ℝ) = (2 * 5) ^ 2 by norm_num, Real.log_pow,
      Real.log_mul (by norm_num) (by norm_num)]
    push_cast
    ring
  rw [show (0.03 : ℝ) = 3 / 100 by norm_num,
    Real.log_div (by norm_num) (by norm_num), h10]

lemma log_point9_eq : Real.log (0.9 : ℝ) = -Real.log (10 / 9) := by
  rw [show (0.9 : ℝ) = ((10 : ℝ) / 9)⁻¹ by norm_num, Real.log_inv]

lemma log_half_eq : Real.log ((1 : ℝ) / 2) = -Real.log 2 := by
  rw [show ((1 : ℝ) / 2) = ((2 : ℝ))⁻¹ by norm_num, Real.log_inv]

/-! The ten sizing fixed points of the test suite, plus the two auxiliary
configurations used by other claims. -/

lemma bits_100_point2 : optimal_bits_needed 100 (0.2 : ℝ) = 335 := by
  obtain ⟨hsq1, hsq2⟩ := log_two_sq_bounds
  obtain ⟨h51, h52⟩ := log_five_bounds
  unfold optimal_bits_needed
  rw [log_point2_eq, Nat.ceil_eq_iff (by norm_num)]
  push_cast
  constructor
  · rw [lt_div_iff₀ (by linarith)]
    linarith
  · rw [div_le_iff₀ (by linarith)]
    linarith

lemma bits_100_point03 : optimal_bits_needed 100 (0.03 : ℝ) = 730 := by
  obtain ⟨hsq1, hsq2⟩ := log_two_sq_bounds
  obtain ⟨h51, h52⟩ := log_five_bounds
  obtain ⟨h31, h32⟩ := log_three_bounds
  have h1 := Real.log_two_gt_d9
  have h2 := Real.log_two_lt_d9
  unfold optimal_bits_needed
  rw [log_point03_eq, Nat.ceil_eq_iff (by norm_num)]
  push_cast
  constructor
  · rw [lt_div_iff₀ (by linarith)]
    linarith
  · rw [div_le_iff₀ (by linarith)]
    linarith

lemma bits_100_point01 : optimal_bits_needed 100 (0.01 : ℝ) = 959 := by
  obtain ⟨hsq1, hsq2⟩ := log_two_sq_bounds
  obtain ⟨h51, h52⟩ := log_five_bounds
  have h1 := Real.log_two_gt_d9
  have h2 := Real.log_two_lt_d9
  unfold optimal_bits_needed
  rw [log_point01_eq, Nat.ceil_eq_iff (by norm_num)]
  push_cast
  constructor
  · rw [lt_div_iff₀ (by linarith)]
    linarith
  · rw [div_le_iff₀ (by linarith)]
    linarith

lemma bits_1_point01 : optimal_bits_needed 1 (0.01 : ℝ) = 10 := by
  obtain ⟨hsq1, hsq2⟩ := log_two_sq_bounds
  obtain ⟨h51, h52⟩ := log_five_bounds
  have h1 := Real.log_two_gt_d9
  have h2 := Real.log_two_lt_d9
  unfold optimal_bits_needed
  rw [log_point01_eq, Nat.ceil_eq_iff (by norm_num)]
  push_cast
  constructor
  · rw [lt_div_iff₀ (by linarith)]
    linarith
  · rw [div_le_iff₀ (by linarith)]
    linarith

lemma bits_10_point01 : optimal_bits_needed 10 (0.01 : ℝ) = 96 := by
  obtain ⟨hsq1, hsq2⟩ := log_two_sq_bounds
  obtain ⟨h51, h52⟩ := log_five_bounds
  have h1 := Real.log_two_gt_d9
  have h2 := Real.log_two_lt_d9
  unfold optimal_bits_needed
  rw [log_point01_eq, Nat.ceil_eq_iff (by norm_num)]
  push_cast
  constructor
  · rw [lt_div_iff₀ (by linarith)]
    linarith
  · rw [div_le_iff₀ (by linarith)]
    linarith

lemma bits_100_point9 : optimal_bits_needed 100 (0.9 : ℝ) = 22 := by
  obtain ⟨hsq1, hsq2⟩ := log_two_sq_bounds
  obtain ⟨h91, h92⟩ := log_ten_ninths_bounds
  unfold optimal_bits_needed
  rw [log_point9_eq, Nat.ceil_eq_iff (by norm_num)]
  push_cast
  constructor
  · rw [lt_div_iff₀ (by linarith)]
    linarith
  · rw [div_le_iff₀ (by linarith)]
    linarith

lemma bits_1_half : optimal_bits_needed 1 ((1 : ℝ) / 2) = 2 := by
  obtain ⟨hsq1, hsq2⟩ := log_two_sq_bounds
  have h1 := Real.log_two_gt_d9
  have h2 := Real.log_two_lt_d9
  unfold optimal_bits_needed
  rw [log_half_eq, Nat.ceil_eq_iff (by norm_num)]
  push_cast
  constructor
  · rw [lt_div_iff₀ (by linarith)]
    linarith
  · rw [div_le_iff₀ (by linarith)]
    linarith

lemma fns_100_point2 : optimal_num_hash_fns 100 (0.2 : ℝ) = some 3 := by
  have h1 := Real.log_two_gt_d9
  have h2 := Real.log_two_lt_d9
  unfold optimal_num_hash_fns
  rw [if_neg (by norm_num), bits_100_point2]
  congr 1
  rw [Nat.ceil_eq_iff (by norm_num)]
  push_cast
  constructor
  · linarith
  · linarith

lemma fns_100_point03 : optimal_num_hash_fns 100 (0.03 : ℝ) = some 6 := by
  have h1 := Real.log_two_gt_d9
  have h2 := Real.log_two_lt_d9
  unfold optimal_num_hash_fns
  rw [if_neg (by norm_num), bits_100_point03]
  congr 1
  rw [Nat.ceil_eq_iff (by norm_num)]
  push_cast
  constructor
  · linarith
  · linarith

lemma fns_100_point01 : optimal_num_hash_fns 100 (0.01 : ℝ) = some 7 := by
  have h1 := Real.log_two_gt_d9
  have h2 := Real.log_two_lt_d9
  unfold optimal_num_hash_fns
  rw [if_neg (by norm_num), bits_100_point01]
  congr 1
  rw [Nat.ceil_eq_iff (by norm_num)]
  push_cast
  constructor
  · linarith
  · linarith

lemma fns_1_point01 : optimal_num_hash_fns 1 (0.01 : ℝ) = some 7 := by
  have h1 := Real.log_two_gt_d9
  have h2 := Real.log_two_lt_d9
  unfold optimal_num_hash_fns
  rw [if_neg (by norm_num), bits_1_point01]
  congr 1
  rw [Nat.ceil_eq_iff (by norm_num)]
  push_cast
  constructor
  · linarith
  · linarith

lemma fns_10_point01 : optimal_num_hash_fns 10 (0.01 : ℝ) = some 7 := by
  have h1 := Real.log_two_gt_d9
  have h2 := Real.log_two_lt_d9
  unfold optimal_num_hash_fns
  rw [if_neg (by norm_num), bits_10_point01]
  congr 1
  rw [Nat.ceil_eq_iff (by norm_num)]
  push_cast
  constructor
  · linarith
  · linarith

lemma fns_100_point9 : optimal_num_hash_fns 100 (0.9 : ℝ) = some 1 := by
  have h1 := Real.log_two_gt_d9
  have h2 := Real.log_two_lt_d9
  unfold optimal_num_hash_fns
  rw [if_neg (by norm_num), bits_100_point9]
  congr 1
  rw [Nat.ceil_eq_iff (by norm_num)]
  push_cast
  constructor
  · linarith
  · linarith

lemma fns_1_half : optimal_num_hash_fns 1 ((1 : ℝ) / 2) = some 2 := by
  have h1 := Real.log_two_gt_d9
  have h2 := Real.log_two_lt_d9
  unfold optimal_num_hash_fns
  rw [if_neg (by norm_num), bits_1_half]
  congr 1
  rw [Nat.ceil_eq_iff (by norm_num)]
  push_cast
  constructor
  · linarith
  · linarith


lemma build_none_eq_new (T : Type) (c : ℕ) (p : ℝ) (hash : T → ℕ) :
    BloomBuilder.build T c p none hash = BloomFilter.new T c p hash := rfl

/-- Claim C3, evaluated at the failing input (code bug).  Constructed through
the public constructor with capacity 100 and false-positive rate 0.9, inside
(0, 1), the filter's buffer has 3 bytes = 24 bits, fewer than capacity bits;
inserting an item whose hash maps to bit index 99 needs byte 12 and reaches
the `None => unreachable!()` branch, contradicting the source's own comment
that the position always refers to a valid index of the bits vector. -/
theorem claim_c3_unreachable_is_reachable :
    (BloomFilter.new Unit 100 (0.9 : ℝ) (fun _ => 99)).map
        (fun f => (f.bits.length, f.capacity, f.num_hash_fns)) = some (3, 100, 1) ∧
      (BloomFilter.new Unit 100 (0.9 : ℝ) (fun _ => 99)).bind
        (fun f => f.insert ()) = none := by
  have hnew : BloomFilter.new Unit 100 (0.9 : ℝ) (fun _ => 99) =
      some (BloomFilter.mk [0, 0, 0] 100 1 (fun _ => 99)) := by
    unfold BloomFilter.new
    rw [fns_100_point9]
    simp only [Option.map_some']
    rw [bits_100_point9]
    rfl
  rw [hnew]
  exact ⟨rfl, rfl⟩

/-- Claim C4 counterexample: at false-positive rate exactly 1, which the
spec admits into the domain (0, 1], construction through the builder
succeeds and yields a filter with `num_hash_fns = 0` instead of failing. -/
theorem claim_c4_counterexample :
    (BloomBuilder.build Unit 100 (1 : ℝ) none (fun _ => 0)).map
      (fun f => f.num_hash_fns) = some 0 := by
  have hbits : optimal_bits_needed 100 (1 : ℝ) = 0 := by
    unfold optimal_bits_needed
    rw [Real.log_one]
    norm_num
  have hfns : optimal_num_hash_fns 100 (1 : ℝ) = some 0 := by
    unfold optimal_num_hash_fns
    rw [if_neg (by norm_num), hbits]
    norm_num
  rw [build_none_eq_new]
  unfold BloomFilter.new
  rw [hfns]
  simp only [Option.map_some']

/-- Claim C4 (amended): for capacity > 0 and false-positive rate strictly
inside (0, 1), every filter produced by the builder (without probe-count
override) or by the direct constructor has `num_hash_fns ≥ 1`; at rate
exactly 1 the construction instead succeeds with zero probes. -/
theorem claim_c4_min_one_probe_amended {T : Type} (n : ℕ) (p : ℝ) (hash : T → ℕ)
    (f : BloomFilter T) (hn : 0 < n) (hp0 : 0 < p) (hp1 : p < 1)
    (hf : BloomFilter.new T n p hash = some f ∨
      BloomBuilder.build T n p none hash = some f) :
    1 ≤ f.num_hash_fns := by
  have hl2 : (0 : ℝ) < Real.log 2 := Real.log_pos (by norm_num)
  have hlog : Real.log p < 0 := Real.log_neg hp0 hp1
  have hval : (0 : ℝ) < -(n : ℝ) * Real.log p / (Real.log 2) ^ 2 := by
    apply div_pos
    · have hn2 : (0 : ℝ) < (n : ℝ) := by exact_mod_cast hn
      nlinarith
    · positivity
  have hbits : 0 < optimal_bits_needed n p := Nat.ceil_pos.mpr hval
  have hkpos : ∀ k, optimal_num_hash_fns n p = some k → 1 ≤ k := by
    intro k hkeq
    unfold optimal_num_hash_fns at hkeq
    rw [if_neg (by omega)] at hkeq
    injection hkeq with hkeq
    have hbr : (0 : ℝ) < ((optimal_bits_needed n p : ℕ) : ℝ) / (n : ℝ) * Real.log 2 := by
      apply mul_pos
      · apply div_pos
        · exact_mod_cast hbits
        · exact_mod_cast hn
      · exact hl2
    have hc := Nat.ceil_pos.mpr hbr
    omega
  have hnew : ∀ g : BloomFilter T, BloomFilter.new T n p hash = some g →
      1 ≤ g.num_hash_fns := by
    intro g hg
    unfold BloomFilter.new at hg
    cases hkk : optimal_num_hash_fns n p with
    | none => rw [hkk] at hg; cases hg
    | some k =>
      rw [hkk] at hg
      simp only [Option.map_some', Option.some.injEq] at hg
      subst hg
      exact hkpos k hkk
  rcases hf with hf | hf
  · exact hnew f hf
  · rw [build_none_eq_new] at hf
    exact hnew f hf

/-- Claim C4 witness: capacity 1 and rate 1/2 build a 2-probe filter. -/
theorem claim_c4_witness :
    1 ≤ (BloomFilter.mk [0] 1 2 (fun _ : Unit => 0)).num_hash_fns :=
  claim_c4_min_one_probe_amended 1 ((1 : ℝ) / 2) (fun _ => 0)
    (BloomFilter.mk [0] 1 2 (fun _ : Unit => 0)) (by decide) one_half_pos one_half_lt_one
    (Or.inl (by
      unfold BloomFilter.new
      rw [fns_1_half]
      simp only [Option.map_some']
      rw [bits_1_half]
      rfl))

/-- Claim C9: sizing determinism at the fixed points of the test suite, for
the ceiling-rounded analytic formulas (the source computes them in 32-bit
floating point; the exact-real model yields exactly the values the source's
own tests assert). -/
theorem claim_c9_sizing_determinism :
    optimal_bits_needed 100 (0.2 : ℝ) = 335 ∧
      optimal_bits_needed 100 (0.03 : ℝ) = 730 ∧
      optimal_bits_needed 100 (0.01 : ℝ) = 959 ∧
      optimal_bits_needed 1 (0.01 : ℝ) = 10 ∧
      optimal_bits_needed 10 (0.01 : ℝ) = 96 ∧
      optimal_num_hash_fns 100 (0.2 : ℝ) = some 3 ∧
      optimal_num_hash_fns 100 (0.03 : ℝ) = some 6 ∧
      optimal_num_hash_fns 100 (0.01 : ℝ) = some 7 ∧
      optimal_num_hash_fns 1 (0.01 : ℝ) = some 7 ∧
      optimal_num_hash_fns 10 (0.01 : ℝ) = some 7 :=
  ⟨bits_100_point2, bits_100_point03, bits_100_point01, bits_1_point01, bits_10_point01,
    fns_100_point2, fns_100_point03, fns_100_point01, fns_1_point01, fns_10_point01⟩

end Flowerbloom
